import Mathlib

/-!
Verification development for a small arcade of turn-based text games
(Hangman, Rock/Scissors/Paper, Blackjack) driven by a common game-state
protocol.  The definitions below are a shallow embedding of the Python
sources `arcade.py` and `hangman.py`: each Python method becomes a Lean
function on an explicit state value, in-place mutation of the Blackjack
deck and hands becomes explicit state passing, and operations that can
raise at runtime (unpacking the first character of an empty string,
popping a card from an empty deck) return `Option`.
-/

set_option autoImplicit false

namespace Arcade

/-- Python `str.lower()` restricted to single characters, covering the
alphabet this program uses (ASCII letters plus the Swedish letters that
occur in the word list and card labels). -/
def pyLower (c : Char) : Char :=
  if c = 'Å' then 'å' else if c = 'Ä' then 'ä' else if c = 'Ö' then 'ö' else c.toLower

/-- State of one Hangman round (`class Hangman`): the target word, the
set of guessed (lowercased) characters, and the remaining guess budget. -/
structure Hangman where
  word : List Char
  guessed : Finset Char
  guessesLeft : Int
deriving DecidableEq

/-- A Blackjack card (`class BlackjackCard`): a human readable label and
a numeric value. -/
structure BCard where
  label : String
  value : Nat
deriving DecidableEq, Repr

/-- State of one Blackjack session (`class Blackjack` together with the
`BlackjackDeck` and the two `BlackjackHand`s it owns): the remaining
deck, the bank hand, and the player hand.  Hands and deck are lists
of cards; the deck is drawn by popping from the end (`list.pop`). -/
structure Blackjack where
  deck : List BCard
  bank : List BCard
  player : List BCard
deriving DecidableEq

/-- The closed set of game states implementing the `GameState` protocol:
the absorbing `FinishedGame`, a Hangman round, the (stateless)
RockScissorPaper game, and a Blackjack session. -/
inductive GState where
  | finished (message : String)
  | hangman (h : Hangman)
  | rsp
  | blackjack (b : Blackjack)
deriving DecidableEq

/-- `done()`: `FinishedGame` inherits `GameState.done`, which returns
`True`; every concrete game overrides it to `False`. -/
def done : GState → Bool
  | .finished _ => true
  | _ => false

/-- `info()`: `FinishedGame` returns its stored message; the other games
inherit `GameState.info`, which returns the empty string. -/
def info : GState → String
  | .finished m => m
  | _ => ""

/-! ## Hangman (`Hangman.next`, arcade.py lines 78-85 / hangman.py 71-78) -/

/-- Line `gl = self.guessesLeft if guessedChar in self.guessed or
correctGuess else self.guessesLeft - 1`, where `correctGuess` is
`guessedChar in self.word.lower()`. -/
def newGuessesLeft (h : Hangman) (guessedChar : Char) : Int :=
  if guessedChar ∈ h.guessed ∨ guessedChar ∈ h.word.map pyLower then h.guessesLeft
  else h.guessesLeft - 1

/-- `Hangman.next` after the first character of the (lowercased) answer
has been extracted: update the guess budget, add the character to the
guessed set (`self.guessed.union([guessedChar])`), then resolve — win if
`set(self.word.lower()).issubset(g)`, loss if the budget dropped below
1, otherwise a fresh Hangman state. -/
def hangmanNext (h : Hangman) (guessedChar : Char) : GState :=
  let gl := newGuessesLeft h guessedChar
  let g := insert guessedChar h.guessed
  if (h.word.map pyLower).toFinset ⊆ g then
    .finished ("Du hittade ordet " ++ String.mk h.word)
  else if gl < 1 then
    .finished ("Du hittade inte ordet " ++ String.mk h.word)
  else
    .hangman ⟨h.word, g, gl⟩

/-! ## Rock/Scissors/Paper (`RockScissorPaper`, arcade.py lines 98-118) -/

def alternatives : List String := ["sten", "sax", "påse"]

def winsOver : List Nat := [1, 2, 0]

/-- `RockScissorPaper.next`: the uniformly random computer index
`random.randint(0, len(self.alternatives)-1)` is passed in explicitly as
`r : Fin 3`.  Non-member input returns the unchanged state; otherwise a
tie, win, or loss `FinishedGame` is produced. -/
def rspNext (answer : String) (r : Fin 3) : GState :=
  if answer ∉ alternatives then .rsp
  else
    let userChoiceIndex := alternatives.indexOf answer
    let computerChoice := alternatives.getD (r : Nat) ""
    if (r : Nat) = userChoiceIndex then .finished "Oavgjort"
    else if winsOver.getD userChoiceIndex 3 = (r : Nat) then
      .finished ("Du vann mot " ++ computerChoice)
    else
      .finished ("Du förlorar mot " ++ computerChoice)

/-! ## Blackjack (arcade.py lines 126-208) -/

def cardColor : List String := ["Spader", "Hjärter", "Ruter", "Klöver"]

def cardName : List String :=
  ["Ess", "Två", "Tre", "Fyra", "Fem", "Sex", "Sju", "Åtta", "Nio", "Tio", "Knekt", "Dam", "Kung"]

def cardValue : List Nat := [11, 2, 3, 4, 5, 6, 7, 8, 9, 10, 10, 10, 10]

/-- The card built for loop index `i` in `BlackjackDeck.__init__`:
`BlackjackCard(f"{cardColor[i % 4]} {cardName[i % 13]}", cardValue[i % 13])`. -/
def mkCard (i : Nat) : BCard :=
  ⟨cardColor.getD (i % 4) "" ++ " " ++ cardName.getD (i % 13) "", cardValue.getD (i % 13) 0⟩

/-- The list comprehension `[... for i in range(1, 52)]` in
`BlackjackDeck.__init__` (before shuffling): loop indices 1 through 51. -/
def fullDeck : List BCard := (List.range' 1 51).map mkCard

/-- `BlackjackDeck.drawCard`: `self.cards.pop()` removes and returns the
last card; on an empty deck Python raises, modelled as `none`. -/
def drawCard (deck : List BCard) : Option (BCard × List BCard) :=
  match deck.getLast? with
  | none => none
  | some c => some (c, deck.dropLast)

/-- `BlackjackHand.value`: `functools.reduce(lambda a, c: a + c.value, self.cards, 0)`. -/
def handValue (cards : List BCard) : Nat :=
  cards.foldl (fun a c => a + c.value) 0

/-- `BlackjackHand.takeCard`: draw one card from the deck and append it
to the hand, returning the updated deck and hand. -/
def takeCard (deck hand : List BCard) : Option (List BCard × List BCard) :=
  match drawCard deck with
  | none => none
  | some (c, d) => some (d, hand ++ [c])

theorem drawCard_length {deck : List BCard} {c : BCard} {d : List BCard}
    (h : drawCard deck = some (c, d)) : d.length < deck.length := by
  unfold drawCard at h
  match hd : deck.getLast? with
  | none => rw [hd] at h; exact absurd h (by simp)
  | some c' =>
    rw [hd] at h
    have hne : deck ≠ [] := by
      intro he; rw [he] at hd; exact absurd hd (by simp)
    have : d = deck.dropLast := by
      injection h with h1
      exact (congrArg Prod.snd h1).symm
    rw [this, List.length_dropLast]
    have : 0 < deck.length := List.length_pos.mpr hne
    omega

/-- `BlackjackHand.takeCardsUntilValue`: `while self.value() < v: self.takeCard()`.
Returns the final deck and hand, or `none` if the deck runs out (a
`pop` from an empty list). -/
def takeCardsUntilValue (deck hand : List BCard) (v : Nat) :
    Option (List BCard × List BCard) :=
  if handValue hand < v then
    match hdraw : drawCard deck with
    | none => none
    | some (c, d) => takeCardsUntilValue d (hand ++ [c]) v
  else
    some (deck, hand)
termination_by deck.length
decreasing_by exact drawCard_length hdraw

/-- The condition `playerWon` computed in `Blackjack.end`:
`(playerValue > bankValue and playerValue <= 21) or bankValue > 21`. -/
def playerWon (bankValue playerValue : Nat) : Bool :=
  (decide (playerValue > bankValue) && decide (playerValue ≤ 21)) || decide (bankValue > 21)

/-- The resolution message built in `Blackjack.end`: both full hands,
both totals, and the winner line. -/
def endMessage (bank player : List BCard) : String :=
  let bankValue := handValue bank
  let playerValue := handValue player
  "\n            Bankens hand: " ++ String.intercalate ", " (bank.map BCard.label) ++
    ", totalt värde " ++ toString bankValue ++
    "\n            Din hand: " ++ String.intercalate ", " (player.map BCard.label) ++
    ", totalt värde " ++ toString playerValue ++ "\n\n            " ++
    (if playerWon bankValue playerValue then "Du vann" else "Banken vann") ++
    "\n                            "

/-- `Blackjack.end` as a state: score once and produce the terminal
`FinishedGame`. -/
def blackjackEnd (bank player : List BCard) : GState :=
  .finished (endMessage bank player)

/-- `Blackjack.next` (arcade.py lines 189-197): on `"stand"` the bank
draws until its value reaches 17 and the game is scored; on `"hit"` the
player draws one card and the game is scored immediately if the new
value exceeds 21; any other input leaves the state unchanged.  `none`
models a draw from an exhausted deck. -/
def blackjackNext (b : Blackjack) (answer : String) : Option GState :=
  if answer = "stand" then
    match takeCardsUntilValue b.deck b.bank 17 with
    | none => none
    | some (_, bank') => some (blackjackEnd bank' b.player)
  else if answer = "hit" then
    match takeCard b.deck b.player with
    | none => none
    | some (d, player') =>
      if handValue player' > 21 then some (blackjackEnd b.bank player')
      else some (.blackjack ⟨d, b.bank, player'⟩)
  else
    some (.blackjack b)

/-- Dealing in `Blackjack.__init__`: from a shuffled deck the bank takes
two cards, then the player takes two cards, in that order.  `none`
models a deal from a deck with fewer than four cards. -/
def mkBlackjack (shuffled : List BCard) : Option Blackjack :=
  match takeCard shuffled [] with
  | none => none
  | some (d1, bank1) =>
    match takeCard d1 bank1 with
    | none => none
    | some (d2, bank2) =>
      match takeCard d2 [] with
      | none => none
      | some (d3, player1) =>
        match takeCard d3 player1 with
        | none => none
        | some (d4, player2) => some ⟨d4, bank2, player2⟩

/-! ## The shared protocol transition -/

/-- `GameState.next` over the closed variant set.  `answer` is the
non-empty input line from the driving loop, `r` the random draw consumed
by RockScissorPaper.  `none` models a Python runtime error (unpacking
the first character of an empty answer, or deck exhaustion). -/
def next (s : GState) (answer : String) (r : Fin 3) : Option GState :=
  match s with
  | .finished m => some (.finished m)
  | .hangman h =>
    match answer.toList with
    | [] => none
    | c :: _ => some (hangmanNext h (pyLower c))
  | .rsp => some (rspNext answer r)
  | .blackjack b => blackjackNext b answer

/-- Iterated `next` over a list of (input, random draw) pairs. -/
def nextMany (s : GState) : List (String × Fin 3) → Option GState
  | [] => some s
  | (a, r) :: rest =>
    match next s a r with
    | none => none
    | some s' => nextMany s' rest

/-! ## Helper lemmas -/

theorem handValue_acc (a : Nat) (l : List BCard) :
    List.foldl (fun a c => a + c.value) a l = a + (l.map BCard.value).sum := by
  induction l generalizing a with
  | nil => simp
  | cons c l ih =>
    simp only [List.foldl_cons, List.map_cons, List.sum_cons]
    rw [ih]
    omega

theorem handValue_eq_sum (l : List BCard) : handValue l = (l.map BCard.value).sum := by
  unfold handValue
  simpa using handValue_acc 0 l

theorem handValue_append (l l' : List BCard) :
    handValue (l ++ l') = handValue l + handValue l' := by
  simp [handValue_eq_sum]

theorem handValue_ge_two_mul {l : List BCard} (h : ∀ c ∈ l, 2 ≤ c.value) :
    2 * l.length ≤ handValue l := by
  induction l with
  | nil => simp [handValue]
  | cons c l ih =>
    have hc : 2 ≤ c.value := h c (by simp)
    have hrest : ∀ c ∈ l, 2 ≤ c.value := fun c hc => h c (by simp [hc])
    have := ih hrest
    simp only [handValue_eq_sum, List.map_cons, List.sum_cons, List.length_cons] at *
    omega

theorem drawCard_eq_some {deck : List BCard} {c : BCard} {d : List BCard}
    (h : drawCard deck = some (c, d)) :
    deck.Perm (c :: d) := by
  unfold drawCard at h
  match hd : deck.getLast? with
  | none => rw [hd] at h; exact absurd h (by simp)
  | some c' =>
    rw [hd] at h
    injection h with h1
    have hc : c' = c := congrArg Prod.fst h1
    have hdl : d = deck.dropLast := (congrArg Prod.snd h1).symm
    have hne : deck ≠ [] := by
      intro he; rw [he] at hd; exact absurd hd (by simp)
    have hlast : deck.getLast hne = c := by
      have h2 := List.getLast?_eq_getLast deck hne
      rw [h2] at hd
      injection hd with hd1
      rw [hd1, hc]
    have hdeck : deck = d ++ [c] := by
      rw [hdl, ← hlast]
      exact (List.dropLast_append_getLast hne).symm
    rw [hdeck]
    exact List.perm_append_comm

theorem drawCard_of_ne_nil {deck : List BCard} (h : deck ≠ []) :
    ∃ c d, drawCard deck = some (c, d) := by
  unfold drawCard
  match hd : deck.getLast? with
  | none =>
    exact absurd (List.getLast?_eq_none_iff.mp hd) h
  | some c => exact ⟨c, deck.dropLast, rfl⟩

theorem takeCard_spec {deck hand d hand' : List BCard}
    (h : takeCard deck hand = some (d, hand')) :
    ∃ c, drawCard deck = some (c, d) ∧ hand' = hand ++ [c] ∧
      (hand ++ deck).Perm (hand' ++ d) ∧ hand'.length = hand.length + 1 := by
  unfold takeCard at h
  match hd : drawCard deck with
  | none => rw [hd] at h; exact absurd h (by simp)
  | some cd =>
    rw [hd] at h
    injection h with h1
    have hd0 : cd.2 = d := congrArg Prod.fst h1
    have hh : hand' = hand ++ [cd.1] := (congrArg Prod.snd h1).symm
    have hcd : cd = (cd.1, d) := by rw [← hd0]
    have hd1 : drawCard deck = some (cd.1, d) := by rw [hd, hcd]
    have hperm : deck.Perm (cd.1 :: d) := drawCard_eq_some hd1
    refine ⟨cd.1, congrArg some hcd, hh, ?_, by rw [hh]; simp⟩
    have h2 : (hand ++ deck).Perm (hand ++ (cd.1 :: d)) := List.Perm.append_left hand hperm
    have h3 : hand ++ (cd.1 :: d) = (hand ++ [cd.1]) ++ d := by simp
    rw [h3, ← hh] at h2
    exact h2

theorem winMsg_ne_loseMsg (w : List Char) :
    ("Du hittade ordet " ++ String.mk w) ≠ ("Du hittade inte ordet " ++ String.mk w) := by
  intro hEq
  have h2 := congrArg String.length hEq
  rw [String.length_append, String.length_append] at h2
  have ha : ("Du hittade ordet " : String).length = 17 := rfl
  have hb : ("Du hittade inte ordet " : String).length = 22 := rfl
  rw [ha, hb] at h2
  omega

/-! ## Claim theorems -/

/-- C6: Finished is absorbing: a `FinishedGame` reports completion, its
message is its stored summary, and `next` applied any number of times
with any inputs returns the identical Finished state. -/
theorem C6_finished_absorbing (m : String) (inputs : List (String × Fin 3)) :
    done (.finished m) = true ∧ info (.finished m) = m ∧
      nextMany (.finished m) inputs = some (.finished m) := by
  refine ⟨rfl, rfl, ?_⟩
  induction inputs with
  | nil => rfl
  | cons p rest ih =>
    obtain ⟨a, r⟩ := p
    simpa [nextMany, next] using ih

/-- C3: at resolution the player wins exactly when (player value >
dealer value and player value ≤ 21) or dealer value > 21, and the
scoring (`blackjackEnd`) is applied exactly once: at the `"stand"`
resolution with the final dealer hand, or at the bust resolution of a
`"hit"`. -/
theorem C3_scoring :
    (∀ bankValue playerValue : Nat,
        playerWon bankValue playerValue = true ↔
          ((bankValue < playerValue ∧ playerValue ≤ 21) ∨ 21 < bankValue)) ∧
    (∀ (b : Blackjack) (d bank' : List BCard),
        takeCardsUntilValue b.deck b.bank 17 = some (d, bank') →
        blackjackNext b "stand" = some (blackjackEnd bank' b.player)) ∧
    (∀ (b : Blackjack) (d player' : List BCard),
        takeCard b.deck b.player = some (d, player') → 21 < handValue player' →
        blackjackNext b "hit" = some (blackjackEnd b.bank player')) := by
  refine ⟨?_, ?_, ?_⟩
  · intro bv pv
    simp [playerWon]
  · intro b d bank' h
    simp [blackjackNext, h]
  · intro b d player' h h21
    have hne : ("hit" : String) ≠ "stand" := by decide
    simp [blackjackNext, hne, h, h21]

theorem C3_scoring_witness :
    blackjackNext ⟨[], [⟨"Klöver Kung", 10⟩, ⟨"Ruter Dam", 10⟩],
        [⟨"Hjärter Knekt", 10⟩, ⟨"Spader Tio", 10⟩]⟩ "stand" =
      some (blackjackEnd [⟨"Klöver Kung", 10⟩, ⟨"Ruter Dam", 10⟩]
        [⟨"Hjärter Knekt", 10⟩, ⟨"Spader Tio", 10⟩]) :=
  C3_scoring.2.1 ⟨[], [⟨"Klöver Kung", 10⟩, ⟨"Ruter Dam", 10⟩],
      [⟨"Hjärter Knekt", 10⟩, ⟨"Spader Tio", 10⟩]⟩ [] _
    (by simp [takeCardsUntilValue, handValue])

/-- C4: on any non-empty input the guessed character is the first input
character lowercased; the guess budget drops by exactly 1 iff that
character is neither already guessed nor in the target word
(case-insensitively), is unchanged otherwise, never increases, and a
repeated guess of the same letter is free on the second occurrence. -/
theorem C4_guess_cost (h : Hangman) (c : Char) (rest : List Char) (r : Fin 3) :
    next (.hangman h) (String.mk (c :: rest)) r = some (hangmanNext h (pyLower c)) ∧
    (newGuessesLeft h (pyLower c) = h.guessesLeft - 1 ↔
      (pyLower c ∉ h.guessed ∧ pyLower c ∉ h.word.map pyLower)) ∧
    (pyLower c ∈ h.guessed ∨ pyLower c ∈ h.word.map pyLower →
      newGuessesLeft h (pyLower c) = h.guessesLeft) ∧
    newGuessesLeft h (pyLower c) ≤ h.guessesLeft ∧
    (∀ h' : Hangman, hangmanNext h (pyLower c) = .hangman h' →
      h'.guessesLeft = newGuessesLeft h (pyLower c) ∧
      newGuessesLeft h' (pyLower c) = h'.guessesLeft) := by
  refine ⟨rfl, ?_, ?_, ?_, ?_⟩
  · unfold newGuessesLeft
    by_cases hmem : pyLower c ∈ h.guessed ∨ pyLower c ∈ h.word.map pyLower
    · rw [if_pos hmem]
      constructor
      · intro heq; exfalso; omega
      · intro hn; exact absurd hmem (by tauto)
    · rw [if_neg hmem]
      push_neg at hmem
      simp [hmem]
  · intro hmem
    unfold newGuessesLeft
    rw [if_pos hmem]
  · unfold newGuessesLeft
    split <;> omega
  · intro h' heq
    by_cases hsub : (h.word.map pyLower).toFinset ⊆ insert (pyLower c) h.guessed
    · have hres : hangmanNext h (pyLower c) =
          .finished ("Du hittade ordet " ++ String.mk h.word) := by
        simp [hangmanNext, hsub]
      rw [hres] at heq
      exact absurd heq (by simp)
    · by_cases hgl : newGuessesLeft h (pyLower c) < 1
      · have hres : hangmanNext h (pyLower c) =
            .finished ("Du hittade inte ordet " ++ String.mk h.word) := by
          simp [hangmanNext, hsub, hgl]
        rw [hres] at heq
        exact absurd heq (by simp)
      · have hres : hangmanNext h (pyLower c) =
            .hangman ⟨h.word, insert (pyLower c) h.guessed, newGuessesLeft h (pyLower c)⟩ := by
          simp [hangmanNext, hsub, hgl]
        rw [hres] at heq
        injection heq with heq1
        rw [← heq1]
        exact ⟨rfl, by simp [newGuessesLeft]⟩

theorem C4_guess_cost_witness :
    newGuessesLeft ⟨['A', 'p', 'a'], ∅, 5⟩ (pyLower 'x') = 5 - 1 :=
  (C4_guess_cost ⟨['A', 'p', 'a'], ∅, 5⟩ 'x' [] 0).2.1.mpr (by decide)

/-- C5: `Hangman.next` yields the winning Finished state exactly when
every distinct letter of the lowercased target word lies in the updated
guessed set, yields the losing Finished state exactly when that fails
and the updated budget is below 1 (win checked first), and otherwise
continues as the updated Hangman state. -/
theorem C5_resolution (h : Hangman) (gc : Char) :
    (hangmanNext h gc = .finished ("Du hittade ordet " ++ String.mk h.word) ↔
      (h.word.map pyLower).toFinset ⊆ insert gc h.guessed) ∧
    (hangmanNext h gc = .finished ("Du hittade inte ordet " ++ String.mk h.word) ↔
      (¬ (h.word.map pyLower).toFinset ⊆ insert gc h.guessed ∧ newGuessesLeft h gc < 1)) ∧
    (¬ (h.word.map pyLower).toFinset ⊆ insert gc h.guessed → ¬ newGuessesLeft h gc < 1 →
      hangmanNext h gc = .hangman ⟨h.word, insert gc h.guessed, newGuessesLeft h gc⟩) := by
  by_cases hsub : (h.word.map pyLower).toFinset ⊆ insert gc h.guessed
  · have hres : hangmanNext h gc = .finished ("Du hittade ordet " ++ String.mk h.word) := by
      simp [hangmanNext, hsub]
    refine ⟨by simp [hres, hsub], ?_, fun hns _ => absurd hsub hns⟩
    rw [hres]
    simp only [GState.finished.injEq]
    constructor
    · intro heq; exact absurd heq (winMsg_ne_loseMsg h.word)
    · intro hcon; exact absurd hsub hcon.1
  · by_cases hgl : newGuessesLeft h gc < 1
    · have hres : hangmanNext h gc = .finished ("Du hittade inte ordet " ++ String.mk h.word) := by
        simp [hangmanNext, hsub, hgl]
      refine ⟨?_, by simp [hres, hsub, hgl], fun _ hngl => absurd hgl hngl⟩
      rw [hres]
      simp only [GState.finished.injEq]
      constructor
      · intro heq; exact absurd heq.symm (winMsg_ne_loseMsg h.word)
      · intro hcon; exact absurd hcon hsub
    · have hres : hangmanNext h gc = .hangman ⟨h.word, insert gc h.guessed, newGuessesLeft h gc⟩ := by
        simp [hangmanNext, hsub, hgl]
      refine ⟨?_, ?_, fun _ _ => hres⟩
      · rw [hres]; simp [hsub]
      · rw [hres]; simp [hsub, hgl]

theorem C5_resolution_witness :
    hangmanNext ⟨['A', 'p', 'a'], ∅, 5⟩ 'z' =
      .hangman ⟨['A', 'p', 'a'], insert 'z' ∅, newGuessesLeft ⟨['A', 'p', 'a'], ∅, 5⟩ 'z'⟩ :=
  (C5_resolution ⟨['A', 'p', 'a'], ∅, 5⟩ 'z').2.2 (by decide) (by decide)

/-- C9: RockScissorPaper rejects non-member input by returning the
unchanged (message-free) state, and otherwise resolves by the drawn
index: equal indices tie, a beats-table hit wins, anything else loses,
with win and loss messages naming the computer choice. -/
theorem C9_rsp (answer : String) (r : Fin 3) :
    (answer ∉ alternatives → rspNext answer r = .rsp ∧ info (rspNext answer r) = "") ∧
    (∀ u : Fin 3, answer = alternatives.getD (u : Nat) "" →
      (((r : Nat) = (u : Nat) → rspNext answer r = .finished "Oavgjort") ∧
       ((r : Nat) ≠ (u : Nat) → winsOver.getD (u : Nat) 3 = (r : Nat) →
         rspNext answer r = .finished ("Du vann mot " ++ alternatives.getD (r : Nat) "")) ∧
       ((r : Nat) ≠ (u : Nat) → winsOver.getD (u : Nat) 3 ≠ (r : Nat) →
         rspNext answer r = .finished ("Du förlorar mot " ++ alternatives.getD (r : Nat) "")))) := by
  constructor
  · intro hna
    have hr : rspNext answer r = .rsp := by simp [rspNext, hna]
    exact ⟨hr, by rw [hr]; rfl⟩
  · intro u hu
    subst hu
    fin_cases u <;> fin_cases r <;> exact (by decide)

theorem C9_rsp_witness :
    rspNext "sten" 1 = .finished ("Du vann mot " ++ alternatives.getD 1 "") :=
  ((C9_rsp "sten" 1).2 0 rfl).2.1 (by decide) (by decide)

/-- C7: on "hit" the player hand grows by the drawn card, so with any
card of value at least 2 (every card this program builds) the hand value
strictly increases; the game resolves immediately — dealer hand
untouched — iff the new value exceeds 21, and otherwise stays an active
Blackjack state. -/
theorem C7_hit (b : Blackjack) (c : BCard) (d : List BCard)
    (hdrawn : drawCard b.deck = some (c, d)) (hval : 2 ≤ c.value) :
    handValue (b.player ++ [c]) = handValue b.player + c.value ∧
    handValue b.player < handValue (b.player ++ [c]) ∧
    blackjackNext b "hit" =
      (if 21 < handValue (b.player ++ [c]) then
        some (blackjackEnd b.bank (b.player ++ [c]))
      else
        some (.blackjack ⟨d, b.bank, b.player ++ [c]⟩)) := by
  have happ : handValue (b.player ++ [c]) = handValue b.player + c.value := by
    rw [handValue_append]
    simp [handValue]
  refine ⟨happ, by omega, ?_⟩
  have htake : takeCard b.deck b.player = some (d, b.player ++ [c]) := by
    simp [takeCard, hdrawn]
  have hne : ("hit" : String) ≠ "stand" := by decide
  simp [blackjackNext, hne, htake]

theorem C7_hit_witness :
    blackjackNext ⟨[⟨"Hjärter Två", 2⟩], [], []⟩ "hit" =
      (if 21 < handValue ([] ++ [(⟨"Hjärter Två", 2⟩ : BCard)]) then
        some (blackjackEnd [] ([] ++ [⟨"Hjärter Två", 2⟩]))
      else
        some (.blackjack ⟨[], [], [] ++ [⟨"Hjärter Två", 2⟩]⟩)) :=
  (C7_hit ⟨[⟨"Hjärter Två", 2⟩], [], []⟩ ⟨"Hjärter Två", 2⟩ [] rfl (by decide)).2.2

theorem takeCardsUntilValue_ge_aux (n : Nat) :
    ∀ (deck hand : List BCard), deck.length ≤ n → ∀ (v : Nat) (d' h' : List BCard),
      takeCardsUntilValue deck hand v = some (d', h') → v ≤ handValue h' := by
  induction n with
  | zero =>
    intro deck hand hlen v d' h' heq
    have hdeck : deck = [] := List.length_eq_zero.mp (Nat.le_zero.mp hlen)
    subst hdeck
    unfold takeCardsUntilValue at heq
    split at heq
    · simp [drawCard] at heq
    · injection heq with heq1
      have hh : hand = h' := congrArg Prod.snd heq1
      rw [← hh]
      omega
  | succ n ih =>
    intro deck hand hlen v d' h' heq
    unfold takeCardsUntilValue at heq
    split at heq
    · split at heq
      · exact absurd heq (by simp)
      · rename_i c dtail hdrawn
        have hd : dtail.length < deck.length := drawCard_length hdrawn
        exact ih dtail (hand ++ [c]) (by omega) v d' h' heq
    · injection heq with heq1
      have hh : hand = h' := congrArg Prod.snd heq1
      rw [← hh]
      omega

theorem takeCardsUntilValue_ge {deck hand : List BCard} {v : Nat} {d' h' : List BCard}
    (heq : takeCardsUntilValue deck hand v = some (d', h')) : v ≤ handValue h' :=
  takeCardsUntilValue_ge_aux deck.length deck hand le_rfl v d' h' heq

/-- C8: on "stand" the dealer hand draws until the first value at least
17, so the stand resolution always goes through `blackjackEnd` with a
final dealer value of at least 17. -/
theorem C8_stand (b : Blackjack) (d' bank' : List BCard)
    (heq : takeCardsUntilValue b.deck b.bank 17 = some (d', bank')) :
    blackjackNext b "stand" = some (blackjackEnd bank' b.player) ∧
      17 ≤ handValue bank' :=
  ⟨by simp [blackjackNext, heq], takeCardsUntilValue_ge heq⟩

theorem C8_stand_witness :
    blackjackNext ⟨[⟨"Hjärter Två", 2⟩], [⟨"Spader Tio", 10⟩, ⟨"Klöver Åtta", 8⟩], []⟩ "stand" =
        some (blackjackEnd [⟨"Spader Tio", 10⟩, ⟨"Klöver Åtta", 8⟩] []) ∧
      17 ≤ handValue [⟨"Spader Tio", 10⟩, ⟨"Klöver Åtta", 8⟩] :=
  C8_stand ⟨[⟨"Hjärter Två", 2⟩], [⟨"Spader Tio", 10⟩, ⟨"Klöver Åtta", 8⟩], []⟩
    [⟨"Hjärter Två", 2⟩] [⟨"Spader Tio", 10⟩, ⟨"Klöver Åtta", 8⟩]
    (by simp [takeCardsUntilValue, handValue])

/-- C1: what the code actually builds.  `BlackjackDeck.__init__` loops
over `range(1, 52)`, skipping index 0, so the fresh deck holds 51
pairwise-distinct cards and the (suit, rank) pair "Spader Ess" is
missing — not the 52 cards the claim states.  Draws do preserve the
partition: drawn cards plus remaining deck stay a permutation of the
initial deck. -/
theorem C1_deck_is_51_cards :
    fullDeck.length = 51 ∧ (⟨"Spader Ess", 11⟩ : BCard) ∉ fullDeck ∧ fullDeck.Nodup ∧
    (∀ (drawn deck d : List BCard) (c : BCard), drawCard deck = some (c, d) →
      (drawn ++ deck).Perm fullDeck → ((drawn ++ [c]) ++ d).Perm fullDeck) := by
  refine ⟨rfl, by decide, by decide, ?_⟩
  intro drawn deck d c hdrawn hperm
  have hp : deck.Perm (c :: d) := drawCard_eq_some hdrawn
  have h1 : (drawn ++ deck).Perm (drawn ++ (c :: d)) := List.Perm.append_left drawn hp
  have h2 : drawn ++ (c :: d) = (drawn ++ [c]) ++ d := by simp
  rw [h2] at h1
  exact h1.symm.trans hperm

theorem C1_deck_is_51_cards_witness :
    ((([] : List BCard) ++ [mkCard 51]) ++ (List.range' 1 50).map mkCard).Perm fullDeck :=
  C1_deck_is_51_cards.2.2.2 [] fullDeck ((List.range' 1 50).map mkCard) (mkCard 51)
    rfl (by simp)

/-! ## Object-identity model of the Hangman constructor default

Python evaluates the default expression `guessed: set[str] = set()` in
`Hangman.__init__` once, at function-definition time; every call that
omits the argument binds that same set object.  To reason about object
identity we model the set objects in an explicit heap: a game state
holds a reference (index) into the heap, and `set.union` — the only set
operation `Hangman.next` performs — allocates a fresh cell and never
writes an existing one. -/

/-- The heap of Python set objects.  Cell 0 is the one default-argument
object created when `Hangman.__init__` was defined. -/
structure HHeap where
  cells : List (Finset Char)
deriving DecidableEq

/-- The heap at program start: only the default-argument object, empty. -/
def initHeap : HHeap := ⟨[∅]⟩

/-- A Hangman state holding its guessed set by reference. -/
structure HangmanRef where
  word : List Char
  guessesLeft : Int
  guessedRef : Nat
deriving DecidableEq

/-- `Hangman(guessesLeft, word)` with the `guessed` parameter omitted:
Python binds the shared default set object, cell 0. -/
def mkHangmanDefault (guessesLeft : Int) (word : List Char) : HangmanRef :=
  ⟨word, guessesLeft, 0⟩

/-- Dereference a set object (reads never fail for valid references). -/
def heapGet (hp : HHeap) (r : Nat) : Finset Char :=
  hp.cells.getD r ∅

/-- `Hangman.next` in the object-identity model: read `self.guessed`
through the reference, compute `self.guessed.union([guessedChar])` —
which allocates a fresh set object and leaves its operands untouched —
and return the successor state (`none` is the transition to
`FinishedGame`, which owns no set). -/
def hangmanNextRef (hp : HHeap) (h : HangmanRef) (guessedChar : Char) :
    HHeap × Option HangmanRef :=
  let guessed := heapGet hp h.guessedRef
  let gl := if guessedChar ∈ guessed ∨ guessedChar ∈ h.word.map pyLower
            then h.guessesLeft else h.guessesLeft - 1
  let g := insert guessedChar guessed
  let hp' : HHeap := ⟨hp.cells ++ [g]⟩
  if (h.word.map pyLower).toFinset ⊆ g then (hp', none)
  else if gl < 1 then (hp', none)
  else (hp', some ⟨h.word, gl, hp.cells.length⟩)

/-- C2 counterexample: two Hangman games for unrelated words, both
constructed without an explicit guessed-letters argument, reference the
same set object (the default cell 0) — the guessed set is not
independently owned. -/
theorem C2_shared_default :
    (mkHangmanDefault 5 "Apa".toList).guessedRef =
      (mkHangmanDefault 7 "Giraff".toList).guessedRef ∧
    (mkHangmanDefault 5 "Apa".toList).guessedRef = 0 :=
  ⟨rfl, rfl⟩

/-- C2 amended: although default-constructed games share the one default
set object, advancing a game only appends a freshly allocated set to the
heap: every existing cell — the shared default included — is unchanged,
and the successor state references the fresh cell.  Hence guessed
letters never become observable in another game. -/
theorem C2_no_leak (hp : HHeap) (h : HangmanRef) (c : Char) (r : Nat)
    (hr : r < hp.cells.length) :
    heapGet (hangmanNextRef hp h c).1 r = heapGet hp r ∧
    (∃ g, (hangmanNextRef hp h c).1.cells = hp.cells ++ [g]) ∧
    (∀ h' : HangmanRef, (hangmanNextRef hp h c).2 = some h' →
      h'.guessedRef = hp.cells.length) := by
  have hcells : (hangmanNextRef hp h c).1.cells =
      hp.cells ++ [insert c (heapGet hp h.guessedRef)] := by
    simp only [hangmanNextRef]
    split_ifs <;> rfl
  refine ⟨?_, ⟨_, hcells⟩, ?_⟩
  · unfold heapGet
    rw [hcells]
    exact List.getD_append _ _ _ _ hr
  · intro h' hsome
    simp only [hangmanNextRef] at hsome
    split_ifs at hsome <;>
      first
        | exact Option.noConfusion hsome
        | (have h2 := Option.some.inj hsome; rw [← h2])

theorem C2_no_leak_witness :
    heapGet (hangmanNextRef initHeap (mkHangmanDefault 5 "Apa".toList) 'x').1 0 =
      heapGet initHeap 0 :=
  (C2_no_leak initHeap (mkHangmanDefault 5 "Apa".toList) 'x' 0 (by decide)).1

/-! ## Reachable Blackjack states and deck-exhaustion safety -/

/-- Every card the deck constructor builds has value at least 2. -/
theorem fullDeck_two_le : ∀ cd ∈ fullDeck, 2 ≤ cd.value := by decide

/-- Dealing specification: `Blackjack.__init__` deals two cards to the
bank and then two to the player, all four drawn from the shared deck. -/
theorem mkBlackjack_spec {shuffled : List BCard} {b : Blackjack}
    (h : mkBlackjack shuffled = some b) :
    shuffled.Perm (b.bank ++ b.player ++ b.deck) ∧
      b.bank.length = 2 ∧ b.player.length = 2 := by
  unfold mkBlackjack at h
  cases h1 : takeCard shuffled [] with
  | none => simp only [h1] at h; exact Option.noConfusion h
  | some p1 =>
    simp only [h1] at h
    obtain ⟨d1, bank1⟩ := p1
    cases h2 : takeCard d1 bank1 with
    | none => simp only [h2] at h; exact Option.noConfusion h
    | some p2 =>
      simp only [h2] at h
      obtain ⟨d2, bank2⟩ := p2
      cases h3 : takeCard d2 [] with
      | none => simp only [h3] at h; exact Option.noConfusion h
      | some p3 =>
        simp only [h3] at h
        obtain ⟨d3, player1⟩ := p3
        cases h4 : takeCard d3 player1 with
        | none => simp only [h4] at h; exact Option.noConfusion h
        | some p4 =>
          simp only [h4] at h
          obtain ⟨d4, player2⟩ := p4
          injection h with hb
          obtain ⟨c1, -, -, hp1, hl1⟩ := takeCard_spec h1
          obtain ⟨c2, -, -, hp2, hl2⟩ := takeCard_spec h2
          obtain ⟨c3, -, -, hp3, hl3⟩ := takeCard_spec h3
          obtain ⟨c4, -, -, hp4, hl4⟩ := takeCard_spec h4
          subst hb
          dsimp only
          refine ⟨?_, ?_, ?_⟩
          · simp only [List.nil_append] at hp1 hp3
            have ha : shuffled.Perm (bank2 ++ d2) := hp1.trans hp2
            have hb2 : d2.Perm (player2 ++ d4) := hp3.trans hp4
            have hc : (bank2 ++ d2).Perm (bank2 ++ (player2 ++ d4)) :=
              List.Perm.append_left bank2 hb2
            have hd : shuffled.Perm (bank2 ++ (player2 ++ d4)) := ha.trans hc
            simpa [List.append_assoc] using hd
          · simp only [List.length_nil] at hl1
            omega
          · simp only [List.length_nil] at hl3
            omega

/-- Blackjack states reachable in one session: a state dealt from some
shuffle of the constructed deck, advanced by any number of accepted
non-resolving "hit" commands (unrecognized input returns the state
unchanged, and "stand" or a bust leave the Blackjack variant). -/
inductive BReach : Blackjack → Prop
  | init (shuffled : List BCard) (b : Blackjack) :
      shuffled.Perm fullDeck → mkBlackjack shuffled = some b → BReach b
  | hit (b b' : Blackjack) :
      BReach b → blackjackNext b "hit" = some (.blackjack b') → BReach b'

/-- Session invariant: the two hands and the deck partition the 51
constructed cards, the bank holds its 2 dealt cards until resolution,
the player holds at least 2 cards, and an active player hand is either
worth at most 21 or still the initial 2 cards. -/
def BInv (b : Blackjack) : Prop :=
  (b.bank ++ b.player ++ b.deck).Perm fullDeck ∧
  b.bank.length = 2 ∧ 2 ≤ b.player.length ∧
  (handValue b.player ≤ 21 ∨ b.player.length = 2)

theorem breach_inv : ∀ b : Blackjack, BReach b → BInv b := by
  intro b hb
  induction hb with
  | init shuffled b hperm hmk =>
    obtain ⟨hp, hb2, hp2⟩ := mkBlackjack_spec hmk
    exact ⟨hp.symm.trans hperm, hb2, by omega, Or.inr hp2⟩
  | hit b b' hb hnext ih =>
    obtain ⟨hperm, hbank, hplen, hval⟩ := ih
    unfold blackjackNext at hnext
    rw [if_neg (by decide), if_pos rfl] at hnext
    cases htc : takeCard b.deck b.player with
    | none => simp only [htc] at hnext; exact Option.noConfusion hnext
    | some p =>
      simp only [htc] at hnext
      obtain ⟨d, player'⟩ := p
      by_cases h21 : handValue player' > 21
      · rw [if_pos h21] at hnext
        exact absurd hnext (by simp [blackjackEnd])
      · rw [if_neg h21] at hnext
        injection hnext with hb1
        injection hb1 with hb2
        obtain ⟨c, -, -, hpp, hlen⟩ := takeCard_spec htc
        rw [← hb2]
        refine ⟨?_, ?_, ?_, ?_⟩
        · dsimp only
          have h1 : (b.bank ++ (b.player ++ b.deck)).Perm (b.bank ++ (player' ++ d)) :=
            List.Perm.append_left b.bank hpp
          have h2 : (b.bank ++ player' ++ d).Perm (b.bank ++ b.player ++ b.deck) := by
            rw [List.append_assoc, List.append_assoc]
            exact h1.symm
          exact h2.trans hperm
        · dsimp only
          exact hbank
        · dsimp only
          omega
        · dsimp only
          exact Or.inl (by omega)

theorem binv_values {b : Blackjack} (hinv : BInv b) :
    (∀ c ∈ b.deck, 2 ≤ c.value) ∧ (∀ c ∈ b.bank, 2 ≤ c.value) ∧
      (∀ c ∈ b.player, 2 ≤ c.value) := by
  obtain ⟨hperm, -, -, -⟩ := hinv
  have hmem : ∀ c, c ∈ b.bank ++ b.player ++ b.deck → 2 ≤ c.value :=
    fun c hc => fullDeck_two_le c (hperm.subset hc)
  exact ⟨fun c hc => hmem c (by simp [hc]), fun c hc => hmem c (by simp [hc]),
    fun c hc => hmem c (by simp [hc])⟩

theorem binv_player_len {b : Blackjack} (hinv : BInv b) : b.player.length ≤ 10 := by
  have hvals := (binv_values hinv).2.2
  obtain ⟨-, -, -, hval⟩ := hinv
  rcases hval with h21 | h2
  · have := handValue_ge_two_mul hvals
    omega
  · omega

theorem binv_deck_len {b : Blackjack} (hinv : BInv b) : 39 ≤ b.deck.length := by
  have hp10 : b.player.length ≤ 10 := binv_player_len hinv
  obtain ⟨hperm, hbank, hplen, -⟩ := hinv
  have hlen := hperm.length_eq
  have h51 : fullDeck.length = 51 := rfl
  simp only [List.length_append, h51] at hlen
  omega

theorem takeCardsUntilValue_some_aux (n : Nat) :
    ∀ (deck hand : List BCard), deck.length ≤ n →
      (∀ c ∈ deck, 2 ≤ c.value) → ∀ v : Nat, v ≤ 2 * deck.length + handValue hand →
      ∃ p, takeCardsUntilValue deck hand v = some p := by
  induction n with
  | zero =>
    intro deck hand hlen hvals v hv
    have hdeck : deck = [] := List.length_eq_zero.mp (Nat.le_zero.mp hlen)
    subst hdeck
    simp only [List.length_nil] at hv
    refine ⟨([], hand), ?_⟩
    unfold takeCardsUntilValue
    rw [if_neg (by omega)]
  | succ n ih =>
    intro deck hand hlen hvals v hv
    by_cases hlt : handValue hand < v
    · have hne : deck ≠ [] := by
        intro he
        subst he
        simp only [List.length_nil] at hv
        omega
      obtain ⟨c, d, hdrawn⟩ := drawCard_of_ne_nil hne
      have hperm := drawCard_eq_some hdrawn
      have hcv : 2 ≤ c.value := hvals c (hperm.symm.subset (List.mem_cons_self c d))
      have hdvals : ∀ x ∈ d, 2 ≤ x.value :=
        fun x hx => hvals x (hperm.symm.subset (List.mem_cons_of_mem c hx))
      have hdlen : deck.length = d.length + 1 := by
        have := hperm.length_eq
        simpa using this
      have hhv : handValue (hand ++ [c]) = handValue hand + c.value := by
        rw [handValue_append]
        simp [handValue]
      obtain ⟨p, hp⟩ := ih d (hand ++ [c]) (by omega) hdvals v (by omega)
      refine ⟨p, ?_⟩
      unfold takeCardsUntilValue
      rw [if_pos hlt, hdrawn]
      exact hp
    · exact ⟨(deck, hand), by unfold takeCardsUntilValue; rw [if_neg hlt]⟩

theorem takeCardsUntilValue_some (deck hand : List BCard) (v : Nat)
    (hvals : ∀ c ∈ deck, 2 ≤ c.value) (hv : v ≤ 2 * deck.length + handValue hand) :
    ∃ p, takeCardsUntilValue deck hand v = some p :=
  takeCardsUntilValue_some_aux deck.length deck hand le_rfl hvals v hv

theorem takeCardsUntilValue_len_aux (n : Nat) :
    ∀ (deck hand : List BCard), deck.length ≤ n →
      (∀ c ∈ deck, 2 ≤ c.value) → (∀ c ∈ hand, 2 ≤ c.value) → hand.length ≤ 9 →
      ∀ d' h' : List BCard, takeCardsUntilValue deck hand 17 = some (d', h') →
      h'.length ≤ 9 := by
  induction n with
  | zero =>
    intro deck hand hlen hdvals hhvals hh9 d' h' heq
    have hdeck : deck = [] := List.length_eq_zero.mp (Nat.le_zero.mp hlen)
    subst hdeck
    unfold takeCardsUntilValue at heq
    split at heq
    · simp [drawCard] at heq
    · injection heq with heq1
      have hh : hand = h' := congrArg Prod.snd heq1
      rw [← hh]
      omega
  | succ n ih =>
    intro deck hand hlen hdvals hhvals hh9 d' h' heq
    unfold takeCardsUntilValue at heq
    split at heq
    · rename_i hlt
      split at heq
      · exact absurd heq (by simp)
      · rename_i c dtail hdrawn
        have hperm := drawCard_eq_some hdrawn
        have hcv : 2 ≤ c.value := hdvals c (hperm.symm.subset (List.mem_cons_self c dtail))
        have hdtvals : ∀ x ∈ dtail, 2 ≤ x.value :=
          fun x hx => hdvals x (hperm.symm.subset (List.mem_cons_of_mem c hx))
        have hhcvals : ∀ x ∈ hand ++ [c], 2 ≤ x.value := by
          intro x hx
          rcases List.mem_append.mp hx with hx1 | hx2
          · exact hhvals x hx1
          · rw [List.mem_singleton.mp hx2]
            exact hcv
        have hmul := handValue_ge_two_mul hhvals
        have hhl8 : hand.length ≤ 8 := by omega
        have hd : dtail.length < deck.length := drawCard_length hdrawn
        exact ih dtail (hand ++ [c]) (by omega) hdtvals hhcvals (by simp; omega) d' h' heq
    · injection heq with heq1
      have hh : hand = h' := congrArg Prod.snd heq1
      rw [← hh]
      omega

/-- C10: in any reachable Blackjack state the transition never pops from
an exhausted deck, and the hands stay within the 21-card bound: the two
active hands hold at most 21 cards, the resolved dealer hand after
"stand" together with the player's hand holds at most 21 cards, and so
does a post-"hit" player hand with the bank hand. -/
theorem C10_no_exhaustion (b : Blackjack) (hreach : BReach b) :
    (∀ answer : String, blackjackNext b answer ≠ none) ∧
    b.bank.length + b.player.length ≤ 21 ∧
    (∀ d' bank' : List BCard, takeCardsUntilValue b.deck b.bank 17 = some (d', bank') →
      bank'.length + b.player.length ≤ 21) ∧
    (∀ d player' : List BCard, takeCard b.deck b.player = some (d, player') →
      b.bank.length + player'.length ≤ 21) := by
  have hinv := breach_inv b hreach
  have hvals := binv_values hinv
  have hp10 := binv_player_len hinv
  have hd39 := binv_deck_len hinv
  obtain ⟨hperm, hbank, hplen, hval⟩ := hinv
  refine ⟨?_, by omega, ?_, ?_⟩
  · intro answer
    by_cases hs : answer = "stand"
    · subst hs
      obtain ⟨⟨dd, hh⟩, hp⟩ := takeCardsUntilValue_some b.deck b.bank 17 hvals.1 (by omega)
      simp [blackjackNext, hp]
    · by_cases hh : answer = "hit"
      · subst hh
        have hne : b.deck ≠ [] := by
          intro he
          rw [he] at hd39
          simp at hd39
        obtain ⟨c, d, hdrawn⟩ := drawCard_of_ne_nil hne
        have htake : takeCard b.deck b.player = some (d, b.player ++ [c]) := by
          simp [takeCard, hdrawn]
        unfold blackjackNext
        rw [if_neg (by decide), if_pos rfl]
        simp only [htake]
        split <;> simp
      · simp [blackjackNext, hs, hh]
  · intro d' bank' heq
    have hb9 := takeCardsUntilValue_len_aux b.deck.length b.deck b.bank le_rfl
      hvals.1 hvals.2.1 (by omega) d' bank' heq
    omega
  · intro d player' htake
    obtain ⟨c, -, -, -, hlen⟩ := takeCard_spec htake
    omega

/-- The Blackjack state dealt from the unshuffled constructed deck
(shuffling with the identity permutation). -/
def b0 : Blackjack :=
  ⟨(List.range' 1 47).map mkCard, [mkCard 51, mkCard 50], [mkCard 49, mkCard 48]⟩

theorem mkBlackjack_fullDeck : mkBlackjack fullDeck = some b0 := rfl

theorem C10_no_exhaustion_witness : blackjackNext b0 "stand" ≠ none :=
  (C10_no_exhaustion b0
    (BReach.init fullDeck b0 (List.Perm.refl fullDeck) mkBlackjack_fullDeck)).1 "stand"

end Arcade
